import Mathlib

/-!
Verification of the Transcript Segmentation and Annotation Engine of
commclimb.com: the live segmentation tracker (src/services/geminiService.ts,
class SpeechTracker), the highlight range resolver
(src/components/TranscriptView.tsx, renderSegment) and the speaking-rate
analyzer (src/unnamed/part_000, SpeakingSpeedView).

Times in seconds are modelled as rationals; time instants from Date.now()
are modelled as integers (milliseconds); JS strings are modelled by String
(for the tracker and analyzer) and by List Char (for the resolver, whose
algorithm works with character offsets).
-/

namespace CommClimb

/-- JavaScript String.prototype.trim on a character list: strip leading and
trailing whitespace. -/
def jsTrim (l : List Char) : List Char :=
  ((l.dropWhile Char.isWhitespace).reverse.dropWhile Char.isWhitespace).reverse

/-- JavaScript String.prototype.trim on a String. -/
def jsTrimStr (s : String) : String :=
  String.mk (jsTrim s.data)

/-- A timed span of spoken text (TranscriptSegment in types.ts). -/
structure Segment where
  startTime : ℚ
  endTime : ℚ
  text : String
deriving DecidableEq

/-! ## Live segmentation tracker (class SpeechTracker) -/

/-- The mutable fields of class SpeechTracker that the segmentation logic
touches: isListening, segments, startTime (a Date.now() instant in ms) and
currentSegmentStart (the segment-boundary cursor, in seconds). -/
structure TrackerState where
  isListening : Bool
  segments : List Segment
  startTime : ℤ
  currentSegmentStart : ℚ
deriving DecidableEq

/-- SpeechTracker.start(): empties the working list, records the session
start instant, resets the cursor to 0 and marks the session active. -/
def TrackerState.start (s : TrackerState) (now : ℤ) : TrackerState :=
  { s with
    segments := []
    startTime := now
    currentSegmentStart := 0
    isListening := true }

/-- One final result delivered to the onresult handler, carrying the
recognized transcript text, at instant now (ms). The handler computes
endTime = (Date.now() - this.startTime) / 1000 and, when the trimmed text is
non-empty (JS truthiness of text.trim()), pushes a segment from the cursor to
endTime and advances the cursor; an empty trimmed text changes nothing.
Note that the handler does not consult isListening. -/
def TrackerState.onresult (s : TrackerState) (text : String) (now : ℤ) :
    TrackerState :=
  let endTime : ℚ := ((now - s.startTime : ℤ) : ℚ) / 1000
  if jsTrimStr text ≠ "" then
    { s with
      segments :=
        s.segments ++ [⟨s.currentSegmentStart, endTime, jsTrimStr text⟩]
      currentSegmentStart := endTime }
  else s

/-- SpeechTracker.stop(): marks the session inactive, asks the recognizer to
stop, and returns the current segment list. -/
def TrackerState.stop (s : TrackerState) : TrackerState × List Segment :=
  ({ s with isListening := false }, s.segments)

/-- The onend handler restarts the recognizer exactly when isListening still
holds; the tracker state itself is unchanged. The returned Bool is whether a
restart is attempted. -/
def TrackerState.onendRestarts (s : TrackerState) : Bool :=
  s.isListening

/-- Deliver a list of final results (text, instant) to the onresult handler
in order. -/
def TrackerState.run (s : TrackerState) : List (String × ℤ) → TrackerState
  | [] => s
  | (t, now) :: evs => (s.onresult t now).run evs

/-! ## Speaking-rate analyzer (SpeakingSpeedView) -/

/-- JavaScript Math.round: round half toward positive infinity. -/
def jsRound (q : ℚ) : ℤ := ⌊q + 1 / 2⌋

/-- Worker for jsSplitWs: inWs records whether the previous character was
part of the current whitespace run, cur accumulates the current chunk in
reverse. A whitespace character that opens a run emits the current chunk;
further whitespace of the same run is absorbed; the final chunk is always
emitted, so trailing whitespace yields a trailing empty chunk, exactly as JS
String.prototype.split with a /\s+/ separator behaves. -/
def splitWsGo : Bool → List Char → List Char → List (List Char)
  | _, cur, [] => [cur.reverse]
  | inWs, cur, c :: cs =>
    if c.isWhitespace then
      if inWs then splitWsGo true cur cs
      else cur.reverse :: splitWsGo true [] cs
    else splitWsGo false (c :: cur) cs

/-- JavaScript t.split(/\s+/) on a character list: the chunks between
maximal whitespace runs, in order. The empty list yields one empty chunk. -/
def jsSplitWs (l : List Char) : List (List Char) :=
  splitWsGo false [] l

/-- Per-segment word count: seg.text.trim().split(/\s+/).length. -/
def Segment.wordCount (seg : Segment) : ℕ :=
  (jsSplitWs (jsTrim seg.text.data)).length

/-- Modelled from the spec's words, for comparison with the code: the count
of whitespace-delimited tokens in the trimmed text, a token being a maximal
non-empty whitespace-free chunk. -/
def specTokenCount (text : String) : ℕ :=
  ((jsSplitWs (jsTrim text.data)).filter (· ≠ [])).length

/-- The guarded words-per-minute expression of SpeakingSpeedView:
duration > 0 ? Math.round((words / duration) * 60) : 0. -/
def wpmOf (words : ℕ) (duration : ℚ) : ℤ :=
  if 0 < duration then jsRound ((words : ℚ) / duration * 60) else 0

/-- Per-segment wpm, with duration = endTime - startTime. -/
def Segment.wpm (seg : Segment) : ℤ :=
  wpmOf seg.wordCount (seg.endTime - seg.startTime)

/-- One entry of the per-segment stats list: the segment spread together
with its wpm. -/
structure SegStat where
  seg : Segment
  wpm : ℤ
deriving DecidableEq

/-- The stats object computed by the useMemo block of SpeakingSpeedView. -/
structure Stats where
  wpm : ℤ
  totalWords : ℕ
  duration : ℚ
  segments : List SegStat
deriving DecidableEq

/-- The useMemo body of SpeakingSpeedView: an empty transcript yields all
zeros; otherwise per-segment stats, totalWords as the sum of the per-segment
word counts, totalDuration as last.endTime - first.startTime, and the global
wpm from those two with the same zero-duration guard. -/
def computeStats : List Segment → Stats
  | [] => ⟨0, 0, 0, []⟩
  | seg₀ :: rest =>
    let transcript := seg₀ :: rest
    let segmentStats := transcript.map fun s => SegStat.mk s s.wpm
    let tw := (transcript.map Segment.wordCount).sum
    let totalDuration :=
      (transcript.getLast (List.cons_ne_nil _ _)).endTime - seg₀.startTime
    ⟨wpmOf tw totalDuration, tw, totalDuration, segmentStats⟩

/-! ## Highlight range resolver (TranscriptView.renderSegment)

The segment text is modelled as a list of characters; a Note carries the
fields of the stored annotation the resolver reads. highlightStart and
highlightEnd may be absent (the Note type marks them optional) and may lie
outside the text, hence the clamping. -/

/-- The fields of a stored Note that renderSegment reads. -/
structure Note where
  content : String
  color : Option String
  highlightStart : Option ℤ
  highlightEnd : Option ℤ
deriving DecidableEq

/-- Math.max(0, Math.min(v, text.length)): clamp an offset into [0, L]. -/
def clampOffset (v : ℤ) (L : ℕ) : ℕ :=
  (max 0 (min v (L : ℤ))).toNat

/-- The clamped boundary points contributed by the notes, in note order:
each defined highlightStart and highlightEnd, clamped to [0, L]. -/
def notePoints (L : ℕ) (notes : List Note) : List ℕ :=
  notes.foldr
    (fun n acc =>
      (match n.highlightStart with
        | some v => [clampOffset v L]
        | none => []) ++
      (match n.highlightEnd with
        | some v => [clampOffset v L]
        | none => []) ++ acc) []

/-- All boundary points fed into the Set: 0 and L plus the notes' clamped
offsets. -/
def allPoints (L : ℕ) (notes : List Note) : List ℕ :=
  0 :: L :: notePoints L notes

/-- Array.from(new Set(points)).sort((a, b) => a - b): the boundary points
as an ascending, duplicate-free list. -/
def sortedPoints (L : ℕ) (notes : List Note) : List ℕ :=
  ((allPoints L notes).dedup).insertionSort (· ≤ ·)

/-- The midpoint start + (end - start) / 2 of a run, as a rational. -/
def midpoint (p q : ℕ) : ℚ :=
  (p : ℚ) + ((q : ℚ) - (p : ℚ)) / 2

/-- The test applied to each note when choosing a run's active note:
n.highlightStart !== undefined && n.highlightEnd !== undefined &&
n.highlightStart <= mid && n.highlightEnd >= mid. The raw, unclamped
offsets are compared with the midpoint. -/
def Note.covers (n : Note) (mid : ℚ) : Bool :=
  match n.highlightStart, n.highlightEnd with
  | some s, some e => decide ((s : ℚ) ≤ mid) && decide ((e : ℚ) ≥ mid)
  | _, _ => false

/-- segmentNotes.slice().reverse().find(...): the last note in list order
that covers the midpoint, if any. -/
def activeNote (notes : List Note) (mid : ℚ) : Option Note :=
  notes.reverse.find? (fun n => n.covers mid)

/-- One produced run: a half-open slice [start, stop) of the text together
with its winning note (none renders as plain text). -/
structure Run where
  start : ℕ
  stop : ℕ
  text : List Char
  active : Option Note
deriving DecidableEq

/-- The loop over consecutive boundary points: each adjacent pair (p, q)
yields the slice text.substring(p, q); an empty slice is skipped, otherwise
the run is tagged with the active note at the midpoint. -/
def runsFrom (text : List Char) (notes : List Note) : List ℕ → List Run
  | p :: q :: rest =>
    let part := (text.drop p).take (q - p)
    let tail := runsFrom text notes (q :: rest)
    if part.isEmpty then tail
    else ⟨p, q, part, activeNote notes (midpoint p q)⟩ :: tail
  | _ => []

/-- renderSegment on one segment's text and its notes: with no notes a
single plain run holding the whole text; otherwise the runs cut at the
sorted boundary points. -/
def renderSegment (text : List Char) (notes : List Note) : List Run :=
  if notes.isEmpty then [⟨0, text.length, text, none⟩]
  else runsFrom text notes (sortedPoints text.length notes)

/-- The number of runs of a run list that cover character position i. -/
def coverCount (runs : List Run) (i : ℕ) : ℕ :=
  runs.countP fun r => decide (r.start ≤ i) && decide (i < r.stop)

/-- The spec's 8-character example text. -/
def exampleText : List Char :=
  ['a', 'b', 'c', 'd', 'e', 'f', 'g', 'h']

/-- The spec's tie-break example: an annotation on the range 0 to 5, added
first. -/
def exampleNoteA : Note :=
  ⟨"earlier note", some "#FDE047", some 0, some 5⟩

/-- The spec's tie-break example: an annotation on the range 3 to 8, added
second. -/
def exampleNoteB : Note :=
  ⟨"later note", some "#86EFAC", some 3, some 8⟩

/-- An inverted (malformed) annotation: highlightStart exceeds highlightEnd
even after clamping. -/
def malformedNote : Note :=
  ⟨"inverted", some "#F9A8D4", some 6, some 2⟩

/-! ## Word-count lemmas -/

theorem head?_dropWhile_not {α : Type} (p : α → Bool) (l : List α) :
    ∀ c, (l.dropWhile p).head? = some c → p c = false := by
  induction l with
  | nil => intro c h; simp at h
  | cons a as ih =>
    intro c h
    by_cases hp : p a
    · rw [List.dropWhile_cons_of_pos hp] at h
      exact ih c h
    · rw [List.dropWhile_cons_of_neg hp] at h
      simp only [List.head?_cons, Option.some.injEq] at h
      subst h
      exact Bool.eq_false_iff.mpr hp

theorem getLast?_dropWhile_of_ne_nil {α : Type} (p : α → Bool) (l : List α)
    (h : l.dropWhile p ≠ []) : (l.dropWhile p).getLast? = l.getLast? := by
  obtain ⟨pre, hpre⟩ := List.dropWhile_suffix (l := l) p
  conv_rhs => rw [← hpre]
  rw [List.getLast?_append]
  cases hd : (l.dropWhile p).getLast? with
  | none => exact absurd (List.getLast?_eq_none_iff.mp hd) h
  | some c => rfl

/-- The trimmed text has no leading whitespace. -/
theorem jsTrim_head (l : List Char) :
    ∀ c, (jsTrim l).head? = some c → c.isWhitespace = false := by
  intro c h
  unfold jsTrim at h
  rw [List.head?_reverse] at h
  have hne : (l.dropWhile Char.isWhitespace).reverse.dropWhile Char.isWhitespace ≠ [] := by
    intro hz
    rw [hz] at h
    simp at h
  rw [getLast?_dropWhile_of_ne_nil _ _ hne, List.getLast?_reverse] at h
  exact head?_dropWhile_not _ _ c h

/-- The trimmed text has no trailing whitespace. -/
theorem jsTrim_getLast (l : List Char) :
    ∀ c, (jsTrim l).getLast? = some c → c.isWhitespace = false := by
  intro c h
  unfold jsTrim at h
  rw [List.getLast?_reverse] at h
  exact head?_dropWhile_not _ _ c h

/-- Every chunk produced by splitWsGo is non-empty, provided the input has no
trailing whitespace, the accumulator is non-empty whenever the input is
empty, and (outside a whitespace run) a leading whitespace character never
meets an empty accumulator. -/
theorem splitWsGo_ne_nil (l : List Char) :
    ∀ (inWs : Bool) (cur : List Char),
    (∀ c, l.getLast? = some c → c.isWhitespace = false) →
    (cur = [] → l ≠ []) →
    (inWs = false → cur = [] →
      ∀ c, l.head? = some c → c.isWhitespace = false) →
    ∀ chunk ∈ splitWsGo inWs cur l, chunk ≠ [] := by
  induction l with
  | nil =>
    intro inWs cur _ h2 _ chunk hm
    simp only [splitWsGo, List.mem_singleton] at hm
    subst hm
    intro hz
    exact (h2 (by simpa using hz)) rfl
  | cons c cs ih =>
    intro inWs cur h1 _ h3 chunk hm
    have hcs_last : cs ≠ [] →
        ∀ d, cs.getLast? = some d → d.isWhitespace = false := by
      intro hne d hd
      apply h1 d
      obtain ⟨e, es, rfl⟩ := List.exists_cons_of_ne_nil hne
      simpa using hd
    by_cases hw : c.isWhitespace
    · have hcs_ne : cs ≠ [] := by
        intro hz
        subst hz
        have := h1 c (by simp)
        rw [hw] at this
        exact Bool.true_eq_false.mp this
      cases inWs with
      | true =>
        rw [show splitWsGo true cur (c :: cs) = splitWsGo true cur cs by
          simp [splitWsGo, hw]] at hm
        exact ih true cur (hcs_last hcs_ne) (fun _ => hcs_ne)
          (fun hF => by exact absurd hF (by simp)) chunk hm
      | false =>
        have hcur : cur ≠ [] := by
          intro hz
          have := h3 rfl hz c (by simp)
          rw [hw] at this
          exact Bool.true_eq_false.mp this
        rw [show splitWsGo false cur (c :: cs) =
            cur.reverse :: splitWsGo true [] cs by
          simp [splitWsGo, hw]] at hm
        rcases List.mem_cons.mp hm with h | h
        · subst h; simpa using hcur
        · exact ih true [] (hcs_last hcs_ne) (fun _ => hcs_ne)
            (fun hF => by exact absurd hF (by simp)) chunk h
    · rw [show splitWsGo inWs cur (c :: cs) = splitWsGo false (c :: cur) cs by
        cases inWs <;> simp [splitWsGo, hw]] at hm
      refine ih false (c :: cur) ?_ (by simp) (by simp) chunk hm
      intro d hd
      rcases List.eq_nil_or_concat cs with hz | ⟨ys, y, rfl⟩
      · rw [hz] at hd; simp at hd
      · apply hcs_last (by simp) d hd

/-- For a non-empty trimmed text, every chunk of the whitespace split is
non-empty, hence filtering out empty chunks changes nothing. -/
theorem jsSplitWs_ne_nil (l : List Char) (h : jsTrim l ≠ []) :
    ∀ chunk ∈ jsSplitWs (jsTrim l), chunk ≠ [] := by
  exact splitWsGo_ne_nil (jsTrim l) false []
    (jsTrim_getLast l) (fun _ => h) (fun _ _ => jsTrim_head l)

/-! ## Claims about the speaking-rate analyzer -/

/-- C3 counterexample: the claim says a segment whose text is all whitespace
has wordCount 0, but the code computes "   ".trim().split(/\s+/).length = 1,
since the JS split of the empty string yields one empty token; the count of
whitespace-delimited tokens of that text is 0. -/
theorem wordCount_empty_counterexample :
    (Segment.mk 0 0 "   ").wordCount = 1 ∧ specTokenCount "   " = 0 := by
  constructor <;> decide!

/-- C3 (amended): for every segment whose trimmed text is non-empty, the
per-segment wordCount equals the count of whitespace-delimited tokens of the
trimmed text; a segment whose text is empty or all-whitespace has
wordCount 1, not 0. -/
theorem wordCount_tokens_amended (seg : Segment) :
    (jsTrim seg.text.data ≠ [] → seg.wordCount = specTokenCount seg.text) ∧
    (jsTrim seg.text.data = [] → seg.wordCount = 1) := by
  constructor
  · intro h
    unfold Segment.wordCount specTokenCount
    rw [List.filter_eq_self.mpr]
    intro chunk hm
    simpa using jsSplitWs_ne_nil seg.text.data h chunk hm
  · intro h
    unfold Segment.wordCount
    rw [h]
    rfl

/-- C3 amended claim at a concrete input: a three-token segment text and an
all-whitespace segment text. -/
theorem wordCount_tokens_witness :
    (Segment.mk 0 1 " one two  three ").wordCount =
        specTokenCount " one two  three " ∧
    (Segment.mk 0 1 "  ").wordCount = 1 :=
  ⟨(wordCount_tokens_amended ⟨0, 1, " one two  three "⟩).1 (by decide!),
   (wordCount_tokens_amended ⟨0, 1, "  "⟩).2 (by decide!)⟩

/-- C7: both the per-segment and the global words-per-minute computations
use the zero-duration guard: a non-positive duration yields 0 (the
division is never reached), and the spec's two sample points evaluate as
stated. -/
theorem wpm_zero_guard :
    (∀ (w : ℕ) (d : ℚ), d ≤ 0 → wpmOf w d = 0) ∧
    (∀ seg : Segment, seg.endTime - seg.startTime ≤ 0 → seg.wpm = 0) ∧
    (∀ (seg₀ : Segment) (rest : List Segment),
      (computeStats (seg₀ :: rest)).duration ≤ 0 →
      (computeStats (seg₀ :: rest)).wpm = 0) ∧
    wpmOf 10 0 = 0 ∧ wpmOf 150 60 = 150 := by
  have hguard : ∀ (w : ℕ) (d : ℚ), d ≤ 0 → wpmOf w d = 0 := by
    intro w d hd
    unfold wpmOf
    rw [if_neg (not_lt.mpr hd)]
  refine ⟨hguard, fun seg h => hguard _ _ h, fun seg₀ rest h => hguard _ _ h,
    by decide!, by decide!⟩

/-- C7 zero-duration guard exercised at concrete inputs: a zero-duration
segment and a single-segment transcript of zero span. -/
theorem wpm_zero_guard_witness :
    wpmOf 7 (-2) = 0 ∧
    (Segment.mk 5 5 "a b").wpm = 0 ∧
    (computeStats [⟨4, 4, "hello there"⟩]).wpm = 0 :=
  ⟨wpm_zero_guard.1 7 (-2) (by norm_num),
   wpm_zero_guard.2.1 ⟨5, 5, "a b"⟩ (by norm_num),
   wpm_zero_guard.2.2.1 ⟨4, 4, "hello there"⟩ [] (by norm_num [computeStats])⟩

/-- C8: for every non-empty transcript, totalWords is the sum of the
per-segment word counts, totalDuration is the last segment's endTime minus
the first segment's startTime, and the global wpm is derived from exactly
those two through the guarded wpm expression; on a concrete gapped
transcript the wall-clock span (12) differs from the sum of the per-segment
durations (4). -/
theorem global_totals :
    (∀ (seg₀ : Segment) (rest : List Segment),
      (computeStats (seg₀ :: rest)).totalWords =
          ((seg₀ :: rest).map Segment.wordCount).sum ∧
      (computeStats (seg₀ :: rest)).duration =
          ((seg₀ :: rest).getLast (List.cons_ne_nil _ _)).endTime -
            seg₀.startTime ∧
      (computeStats (seg₀ :: rest)).wpm =
          wpmOf (computeStats (seg₀ :: rest)).totalWords
            (computeStats (seg₀ :: rest)).duration) ∧
    (computeStats [⟨0, 2, "a b"⟩, ⟨10, 12, "c d"⟩]).duration = 12 ∧
    ((⟨0, 2, "a b"⟩ : Segment).endTime - (⟨0, 2, "a b"⟩ : Segment).startTime) +
      ((⟨10, 12, "c d"⟩ : Segment).endTime -
        (⟨10, 12, "c d"⟩ : Segment).startTime) = 4 := by
  refine ⟨fun seg₀ rest => ⟨rfl, rfl, rfl⟩, by decide!, by decide!⟩

/-! ## Claims about the live segmentation tracker -/

/-- C6: a final-result event whose trimmed text is empty appends no segment
and leaves the segment-boundary cursor (and the whole tracker state)
unchanged. -/
theorem empty_event_discarded (s : TrackerState) (text : String) (now : ℤ)
    (h : jsTrimStr text = "") :
    (s.onresult text now).segments = s.segments ∧
    (s.onresult text now).currentSegmentStart = s.currentSegmentStart ∧
    s.onresult text now = s := by
  have : s.onresult text now = s := by
    unfold TrackerState.onresult
    simp [h]
  exact ⟨by rw [this], by rw [this], this⟩

/-- C6 at a concrete input: an all-whitespace result delivered mid-session
changes nothing. -/
theorem empty_event_discarded_witness :
    ((TrackerState.mk true [⟨0, 1, "hi"⟩] 0 1).onresult "  " 2500).segments
        = [⟨0, 1, "hi"⟩] ∧
    ((TrackerState.mk true [⟨0, 1, "hi"⟩] 0 1).onresult "  "
        2500).currentSegmentStart = 1 ∧
    (TrackerState.mk true [⟨0, 1, "hi"⟩] 0 1).onresult "  " 2500
        = TrackerState.mk true [⟨0, 1, "hi"⟩] 0 1 :=
  empty_event_discarded ⟨true, [⟨0, 1, "hi"⟩], 0, 1⟩ "  " 2500 (by decide!)

/-- C1 counterexample: the onresult handler never consults isListening, so a
final-result event delivered after stop() is not ignored. Concretely, start
a session at instant 0, stop it at once (the returned transcript is empty),
then deliver a late final result at instant 2000: the tracker state changes
and a segment is appended, so the list stop() returned was not final. -/
theorem stop_then_result_counterexample :
    ((((TrackerState.mk false [] 0 0).start 0).stop.1.onresult "hello" 2000)
        ≠ ((TrackerState.mk false [] 0 0).start 0).stop.1) ∧
    (((TrackerState.mk false [] 0 0).start 0).stop.2 = []) ∧
    ((((TrackerState.mk false [] 0 0).start 0).stop.1.onresult "hello"
        2000).segments = [⟨0, 2, "hello"⟩]) := by
  refine ⟨?_, by decide!, by decide!⟩
  intro h
  have := congrArg (fun st => st.segments) h
  revert this
  decide!

/-- C1 (amended): stop() marks the session inactive, which suppresses any
further auto-restart from the onend handler, but a subsequently delivered
final-result event is still processed: an empty-trimmed one changes
nothing, while a non-empty one appends a segment to the tracker's working
list (the very list stop() returned) and advances the cursor, so the list
returned by stop() is not final while late events can still arrive. -/
theorem stop_suppresses_restart_but_not_results (s : TrackerState)
    (text : String) (now : ℤ) :
    s.stop.1.isListening = false ∧
    s.stop.1.onendRestarts = false ∧
    (jsTrimStr text = "" → s.stop.1.onresult text now = s.stop.1) ∧
    (jsTrimStr text ≠ "" →
      (s.stop.1.onresult text now).segments =
        s.stop.2 ++ [⟨s.currentSegmentStart,
          ((now - s.startTime : ℤ) : ℚ) / 1000, jsTrimStr text⟩] ∧
      (s.stop.1.onresult text now).currentSegmentStart =
        ((now - s.startTime : ℤ) : ℚ) / 1000) := by
  refine ⟨rfl, rfl, ?_, ?_⟩
  · intro h
    unfold TrackerState.onresult
    simp [h]
  · intro h
    unfold TrackerState.onresult TrackerState.stop
    simp [h]

/-- C1 amended claim at a concrete input: a session started at instant 0
and stopped at once, with a late non-empty result at instant 2000. -/
theorem stop_suppresses_restart_witness :
    ((TrackerState.mk true [] 0 0).stop.1.isListening = false) ∧
    ((TrackerState.mk true [] 0 0).stop.1.onendRestarts = false) ∧
    (((TrackerState.mk true [] 0 0).stop.1.onresult "hello" 2000).segments
        = [] ++ [⟨0, (2000 - 0 : ℤ) / 1000, jsTrimStr "hello"⟩]) := by
  obtain ⟨h1, h2, _, h4⟩ :=
    stop_suppresses_restart_but_not_results ⟨true, [], 0, 0⟩ "hello" 2000
  exact ⟨h1, h2, (h4 (by decide!)).1⟩

/-- Invariant preservation for a run of final-result events with
non-decreasing instants: the segment list stays chained by startTime, every
segment satisfies startTime less-or-equal endTime, every endTime is at most
the cursor, and the cursor is at most the elapsed time of the next event. -/
theorem run_inv (events : List (String × ℤ)) :
    ∀ (s : TrackerState) (τ : ℤ),
    s.segments.Chain' (fun a b => a.startTime ≤ b.startTime) →
    (∀ seg ∈ s.segments, seg.startTime ≤ seg.endTime) →
    (∀ seg ∈ s.segments, seg.endTime ≤ s.currentSegmentStart) →
    s.currentSegmentStart ≤ ((τ - s.startTime : ℤ) : ℚ) / 1000 →
    (τ :: events.map Prod.snd).Chain' (· ≤ ·) →
    (s.run events).segments.Chain' (fun a b => a.startTime ≤ b.startTime) ∧
    (∀ seg ∈ (s.run events).segments, seg.startTime ≤ seg.endTime) := by
  induction events with
  | nil => intro s τ h1 h2 _ _ _; exact ⟨h1, h2⟩
  | cons ev evs ih =>
    obtain ⟨text, now⟩ := ev
    intro s τ h1 h2 h3 hcur hchain
    rw [List.map_cons, List.chain'_cons] at hchain
    obtain ⟨hτnow, hchain'⟩ := hchain
    have helapsed : ((τ - s.startTime : ℤ) : ℚ) / 1000 ≤
        ((now - s.startTime : ℤ) : ℚ) / 1000 := by
      rw [div_le_div_iff_of_pos_right (by norm_num : (0:ℚ) < 1000)]
      exact_mod_cast sub_le_sub_right hτnow s.startTime
    simp only [TrackerState.run, TrackerState.onresult]
    by_cases ht : jsTrimStr text = ""
    · rw [if_neg (not_not_intro ht)]
      exact ih s now h1 h2 h3 (le_trans hcur helapsed) hchain'
    · rw [if_pos ht]
      have hce : s.currentSegmentStart ≤ ((now - s.startTime : ℤ) : ℚ) / 1000 :=
        le_trans hcur helapsed
      refine ih _ now ?_ ?_ ?_ ?_ hchain'
      · rw [List.chain'_append]
        refine ⟨h1, List.chain'_singleton _, ?_⟩
        intro x hx y hy
        simp only [List.head?_cons, Option.mem_def, Option.some.injEq] at hy
        subst hy
        have hxm : x ∈ s.segments :=
          List.mem_of_getLast?_eq_some (Option.mem_def.mp hx)
        exact le_trans (h2 x hxm) (h3 x hxm)
      · intro seg hseg
        rcases List.mem_append.mp hseg with hm | hm
        · exact h2 seg hm
        · rw [List.mem_singleton.mp hm]
          exact hce
      · intro seg hseg
        rcases List.mem_append.mp hseg with hm | hm
        · exact le_trans (h3 seg hm) hce
        · rw [List.mem_singleton.mp hm]
      · exact le_refl _

/-- C5: for every sequence of final-result events delivered in order with
non-decreasing instants, each at or after the session start instant, the
emitted segment sequence has non-decreasing startTime and every segment
satisfies startTime less-or-equal endTime. -/
theorem tracker_monotone (s₀ : TrackerState) (t₀ : ℤ)
    (events : List (String × ℤ))
    (h : (t₀ :: events.map Prod.snd).Chain' (· ≤ ·)) :
    ((s₀.start t₀).run events).segments.Chain'
      (fun a b => a.startTime ≤ b.startTime) ∧
    ∀ seg ∈ ((s₀.start t₀).run events).segments,
      seg.startTime ≤ seg.endTime := by
  refine run_inv events (s₀.start t₀) t₀ ?_ ?_ ?_ ?_ h
  · exact List.chain'_nil
  · intro seg hseg; simp [TrackerState.start] at hseg
  · intro seg hseg; simp [TrackerState.start] at hseg
  · show (0 : ℚ) ≤ ((t₀ - t₀ : ℤ) : ℚ) / 1000
    simp

/-- C5 at a concrete input: three events, one of them empty-trimmed and one
sharing an instant with its successor. -/
theorem tracker_monotone_witness :
    (((TrackerState.mk false [] 5 9).start 0).run
        [("hello", 1000), ("  ", 1500), ("world", 1500),
         ("again", 3000)]).segments.Chain'
      (fun a b => a.startTime ≤ b.startTime) ∧
    ∀ seg ∈ (((TrackerState.mk false [] 5 9).start 0).run
        [("hello", 1000), ("  ", 1500), ("world", 1500),
         ("again", 3000)]).segments,
      seg.startTime ≤ seg.endTime :=
  tracker_monotone ⟨false, [], 5, 9⟩ 0
    [("hello", 1000), ("  ", 1500), ("world", 1500), ("again", 3000)]
    (by norm_num [List.chain'_cons])

/-! ## Boundary-point lemmas for the resolver -/

theorem clampOffset_le (v : ℤ) (L : ℕ) : clampOffset v L ≤ L := by
  unfold clampOffset
  rw [Int.toNat_le]
  exact max_le (by exact_mod_cast Nat.zero_le L) (min_le_right _ _)

theorem clampOffset_mono {v w : ℤ} (L : ℕ) (h : v ≤ w) :
    clampOffset v L ≤ clampOffset w L := by
  unfold clampOffset
  have : max 0 (min v (L : ℤ)) ≤ max 0 (min w (L : ℤ)) :=
    max_le_max (le_refl 0) (min_le_min h (le_refl _))
  omega

theorem notePoints_cons (L : ℕ) (n : Note) (ns : List Note) :
    notePoints L (n :: ns) =
      (match n.highlightStart with
        | some v => [clampOffset v L]
        | none => []) ++
      (match n.highlightEnd with
        | some v => [clampOffset v L]
        | none => []) ++ notePoints L ns := rfl

theorem notePoints_le (L : ℕ) (notes : List Note) :
    ∀ x ∈ notePoints L notes, x ≤ L := by
  induction notes with
  | nil => intro x hx; simp [notePoints] at hx
  | cons n ns ih =>
    intro x hx
    rw [notePoints_cons] at hx
    rcases List.mem_append.mp hx with hx' | hx'
    · rcases List.mem_append.mp hx' with hx'' | hx''
      · cases hS : n.highlightStart with
        | none => rw [hS] at hx''; simp at hx''
        | some v =>
          rw [hS] at hx''
          rw [List.mem_singleton.mp hx'']
          exact clampOffset_le v L
      · cases hE : n.highlightEnd with
        | none => rw [hE] at hx''; simp at hx''
        | some v =>
          rw [hE] at hx''
          rw [List.mem_singleton.mp hx'']
          exact clampOffset_le v L
    · exact ih x hx'

theorem clamp_start_mem_notePoints (L : ℕ) (notes : List Note) (n : Note)
    (hn : n ∈ notes) (s : ℤ) (hs : n.highlightStart = some s) :
    clampOffset s L ∈ notePoints L notes := by
  induction notes with
  | nil => cases hn
  | cons m ms ih =>
    rw [notePoints_cons]
    rcases List.mem_cons.mp hn with rfl | hn'
    · rw [hs]
      exact List.mem_append.mpr (Or.inl (List.mem_append.mpr (Or.inl (by simp))))
    · exact List.mem_append.mpr (Or.inr (ih hn'))

theorem clamp_end_mem_notePoints (L : ℕ) (notes : List Note) (n : Note)
    (hn : n ∈ notes) (e : ℤ) (he : n.highlightEnd = some e) :
    clampOffset e L ∈ notePoints L notes := by
  induction notes with
  | nil => cases hn
  | cons m ms ih =>
    rw [notePoints_cons]
    rcases List.mem_cons.mp hn with rfl | hn'
    · rw [he]
      exact List.mem_append.mpr (Or.inl (List.mem_append.mpr (Or.inr (by simp))))
    · exact List.mem_append.mpr (Or.inr (ih hn'))

theorem notePoints_length_le (L : ℕ) (notes : List Note) :
    (notePoints L notes).length ≤ 2 * notes.length := by
  induction notes with
  | nil => simp [notePoints]
  | cons n ns ih =>
    rw [notePoints_cons]
    simp only [List.length_append, List.length_cons]
    have h1 : (match n.highlightStart with
        | some v => [clampOffset v L]
        | none => ([] : List ℕ)).length ≤ 1 := by
      cases n.highlightStart <;> simp
    have h2 : (match n.highlightEnd with
        | some v => [clampOffset v L]
        | none => ([] : List ℕ)).length ≤ 1 := by
      cases n.highlightEnd <;> simp
    omega

theorem sortedPoints_sorted (L : ℕ) (notes : List Note) :
    (sortedPoints L notes).Sorted (· ≤ ·) :=
  List.sorted_insertionSort _ _

theorem sortedPoints_nodup (L : ℕ) (notes : List Note) :
    (sortedPoints L notes).Nodup :=
  ((List.perm_insertionSort _ _).nodup_iff).mpr (List.nodup_dedup _)

theorem sortedPoints_sorted_lt (L : ℕ) (notes : List Note) :
    (sortedPoints L notes).Sorted (· < ·) :=
  (sortedPoints_sorted L notes).lt_of_le (sortedPoints_nodup L notes)

theorem mem_sortedPoints {L : ℕ} {notes : List Note} {x : ℕ} :
    x ∈ sortedPoints L notes ↔ x ∈ allPoints L notes := by
  unfold sortedPoints
  rw [List.mem_insertionSort, List.mem_dedup]

theorem sortedPoints_le (L : ℕ) (notes : List Note) :
    ∀ x ∈ sortedPoints L notes, x ≤ L := by
  intro x hx
  have hx' : x ∈ allPoints L notes := mem_sortedPoints.mp hx
  unfold allPoints at hx'
  rcases List.mem_cons.mp hx' with h | h
  · rw [h]; exact Nat.zero_le L
  · rcases List.mem_cons.mp h with h' | h'
    · rw [h']
    · exact notePoints_le L notes x h'

theorem zero_mem_sortedPoints (L : ℕ) (notes : List Note) :
    0 ∈ sortedPoints L notes :=
  mem_sortedPoints.mpr (by simp [allPoints])

theorem len_mem_sortedPoints (L : ℕ) (notes : List Note) :
    L ∈ sortedPoints L notes :=
  mem_sortedPoints.mpr (by simp [allPoints])

theorem sortedPoints_ne_nil (L : ℕ) (notes : List Note) :
    sortedPoints L notes ≠ [] := by
  intro h
  have := zero_mem_sortedPoints L notes
  rw [h] at this
  cases this

theorem sortedPoints_head_zero (L : ℕ) (notes : List Note) (p : ℕ)
    (rest : List ℕ) (h : sortedPoints L notes = p :: rest) : p = 0 := by
  have h0 := zero_mem_sortedPoints L notes
  rw [h] at h0
  rcases List.mem_cons.mp h0 with h0 | h0
  · exact h0.symm
  · have hs := sortedPoints_sorted L notes
    rw [h] at hs
    exact Nat.le_zero.mp (List.rel_of_sorted_cons hs 0 h0)

theorem sorted_getLast?_max {l : List ℕ} (hs : l.Sorted (· < ·)) {y : ℕ}
    (hy : y ∈ l) (hmax : ∀ x ∈ l, x ≤ y) : l.getLast? = some y := by
  induction l with
  | nil => cases hy
  | cons a t ih =>
    cases t with
    | nil =>
      rw [List.mem_singleton.mp hy]
      simp
    | cons b t' =>
      rw [List.getLast?_cons_cons]
      have hab : a < b := List.rel_of_sorted_cons hs b (by simp)
      have hy' : y ∈ b :: t' := by
        rcases List.mem_cons.mp hy with rfl | hy'
        · exact absurd (hmax b (by simp)) (not_le.mpr hab)
        · exact hy'
      exact ih hs.of_cons hy' fun x hx => hmax x (List.mem_cons_of_mem _ hx)

theorem sortedPoints_getLast? (L : ℕ) (notes : List Note) :
    (sortedPoints L notes).getLast? = some L :=
  sorted_getLast?_max (sortedPoints_sorted_lt L notes)
    (len_mem_sortedPoints L notes) (sortedPoints_le L notes)

/-! ## Run-construction lemmas for the resolver -/

theorem runsFrom_cons_cons (text : List Char) (notes : List Note) (p q : ℕ)
    (rest : List ℕ) :
    runsFrom text notes (p :: q :: rest) =
      if ((text.drop p).take (q - p)).isEmpty then
        runsFrom text notes (q :: rest)
      else
        ⟨p, q, (text.drop p).take (q - p), activeNote notes (midpoint p q)⟩ ::
          runsFrom text notes (q :: rest) := by
  simp only [runsFrom]

theorem runsFrom_join (text : List Char) (notes : List Note) :
    ∀ (rest : List ℕ) (p : ℕ), (p :: rest).Sorted (· ≤ ·) →
    (∀ x ∈ p :: rest, x ≤ text.length) →
    (p :: rest).getLast? = some text.length →
    ((runsFrom text notes (p :: rest)).map Run.text).flatten = text.drop p := by
  intro rest
  induction rest with
  | nil =>
    intro p _ _ hlast
    simp only [List.getLast?_singleton, Option.some.injEq] at hlast
    rw [hlast]
    simp [runsFrom]
  | cons q rest' ih =>
    intro p hsort hle hlast
    have hpq : p ≤ q := List.rel_of_sorted_cons hsort q (by simp)
    have hrec : ((runsFrom text notes (q :: rest')).map Run.text).flatten =
        text.drop q :=
      ih q hsort.of_cons (fun x hx => hle x (List.mem_cons_of_mem _ hx))
        (by rw [← hlast, List.getLast?_cons_cons])
    have hjoin : ((runsFrom text notes (p :: q :: rest')).map Run.text).flatten =
        (text.drop p).take (q - p) ++
          ((runsFrom text notes (q :: rest')).map Run.text).flatten := by
      rw [runsFrom_cons_cons]
      by_cases hpart : ((text.drop p).take (q - p)).isEmpty
      · rw [if_pos hpart]
        rw [List.isEmpty_iff.mp hpart]
        simp
      · rw [if_neg hpart]
        simp
    rw [hjoin, hrec,
      show text.drop q = (text.drop p).drop (q - p) by
        rw [List.drop_drop]; congr 1; omega]
    exact List.take_append_drop _ _

theorem renderSegment_join (text : List Char) (notes : List Note) :
    ((renderSegment text notes).map Run.text).flatten = text := by
  unfold renderSegment
  by_cases h : notes.isEmpty
  · rw [if_pos h]; simp
  · rw [if_neg h]
    obtain ⟨p, rest, hpr⟩ :=
      List.exists_cons_of_ne_nil (sortedPoints_ne_nil text.length notes)
    have hp0 : p = 0 := sortedPoints_head_zero text.length notes p rest hpr
    rw [hpr, runsFrom_join text notes rest p
      (hpr ▸ sortedPoints_sorted text.length notes)
      (fun x hx => sortedPoints_le text.length notes x (hpr ▸ hx))
      (by rw [← hpr]; exact sortedPoints_getLast? text.length notes), hp0]
    exact List.drop_zero text

theorem runsFrom_coverCount (text : List Char) (notes : List Note) :
    ∀ (rest : List ℕ) (p : ℕ), (p :: rest).Sorted (· < ·) →
    (∀ x ∈ p :: rest, x ≤ text.length) →
    (p :: rest).getLast? = some text.length →
    ∀ i : ℕ,
      (p ≤ i → i < text.length →
        coverCount (runsFrom text notes (p :: rest)) i = 1) ∧
      (i < p → coverCount (runsFrom text notes (p :: rest)) i = 0) := by
  intro rest
  induction rest with
  | nil =>
    intro p _ _ hlast i
    simp only [List.getLast?_singleton, Option.some.injEq] at hlast
    constructor
    · intro hpi hiL
      rw [hlast] at hpi
      omega
    · intro _
      rfl
  | cons q rest' ih =>
    intro p hsort hle hlast i
    have hpq : p < q := List.rel_of_sorted_cons hsort q (by simp)
    have hqL : q ≤ text.length := hle q (by simp)
    have hplen : p < text.length := lt_of_lt_of_le hpq hqL
    have hpart : ((text.drop p).take (q - p)).isEmpty = false := by
      rw [List.isEmpty_eq_false]
      apply List.ne_nil_of_length_pos
      rw [List.length_take, List.length_drop]
      omega
    obtain ⟨ih1, ih2⟩ := ih q hsort.of_cons
      (fun x hx => hle x (List.mem_cons_of_mem _ hx))
      (by rw [← hlast, List.getLast?_cons_cons]) i
    rw [runsFrom_cons_cons, if_neg (by simp [hpart])]
    constructor
    · intro hpi hiL
      by_cases hiq : i < q
      · rw [show coverCount (⟨p, q, (text.drop p).take (q - p),
            activeNote notes (midpoint p q)⟩ ::
            runsFrom text notes (q :: rest')) i =
            coverCount (runsFrom text notes (q :: rest')) i + 1 by
          unfold coverCount
          rw [List.countP_cons]
          simp [hpi, hiq]]
        rw [ih2 hiq]
      · rw [show coverCount (⟨p, q, (text.drop p).take (q - p),
            activeNote notes (midpoint p q)⟩ ::
            runsFrom text notes (q :: rest')) i =
            coverCount (runsFrom text notes (q :: rest')) i by
          unfold coverCount
          rw [List.countP_cons]
          simp [hiq]]
        exact ih1 (not_lt.mp hiq) hiL
    · intro hip
      rw [show coverCount (⟨p, q, (text.drop p).take (q - p),
          activeNote notes (midpoint p q)⟩ ::
          runsFrom text notes (q :: rest')) i =
          coverCount (runsFrom text notes (q :: rest')) i by
        unfold coverCount
        rw [List.countP_cons]
        simp [not_le.mpr hip]]
      exact ih2 (lt_trans hip hpq)

theorem renderSegment_coverCount (text : List Char) (notes : List Note) :
    ∀ i, i < text.length → coverCount (renderSegment text notes) i = 1 := by
  intro i hi
  unfold renderSegment
  by_cases h : notes.isEmpty
  · rw [if_pos h]
    unfold coverCount
    rw [List.countP_cons]
    simp [hi]
  · rw [if_neg h]
    obtain ⟨p, rest, hpr⟩ :=
      List.exists_cons_of_ne_nil (sortedPoints_ne_nil text.length notes)
    have hp0 : p = 0 := sortedPoints_head_zero text.length notes p rest hpr
    rw [hpr]
    exact (runsFrom_coverCount text notes rest p
      (hpr ▸ sortedPoints_sorted_lt text.length notes)
      (fun x hx => sortedPoints_le text.length notes x (hpr ▸ hx))
      (by rw [← hpr]; exact sortedPoints_getLast? text.length notes) i).1
      (hp0 ▸ Nat.zero_le i) hi

theorem runsFrom_length_le (text : List Char) (notes : List Note) :
    ∀ pts : List ℕ, (runsFrom text notes pts).length ≤ pts.length - 1 := by
  intro pts
  induction pts with
  | nil => simp [runsFrom]
  | cons p rest ih =>
    cases rest with
    | nil => simp [runsFrom]
    | cons q rest' =>
      rw [runsFrom_cons_cons]
      simp only [List.length_cons] at ih ⊢
      by_cases hpart : ((text.drop p).take (q - p)).isEmpty
      · rw [if_pos hpart]
        omega
      · rw [if_neg hpart]
        simp only [List.length_cons]
        omega

theorem renderSegment_length_le (text : List Char) (notes : List Note) :
    (renderSegment text notes).length ≤ 2 * notes.length + 1 := by
  unfold renderSegment
  by_cases h : notes.isEmpty
  · rw [if_pos h]; simp
  · rw [if_neg h]
    have h1 := runsFrom_length_le text notes (sortedPoints text.length notes)
    have h2 : (sortedPoints text.length notes).length ≤
        (notePoints text.length notes).length + 2 := by
      unfold sortedPoints allPoints
      rw [List.length_insertionSort]
      have := (List.dedup_sublist
        (0 :: text.length :: notePoints text.length notes)).length_le
      simp only [List.length_cons] at this
      omega
    have h3 := notePoints_length_le text.length notes
    omega

/-- Every run produced by runsFrom sits between two adjacent boundary
points, and its text and active note are the slice and the midpoint winner
for exactly that pair. -/
theorem runsFrom_mem (text : List Char) (notes : List Note) :
    ∀ (pts : List ℕ) (r : Run), r ∈ runsFrom text notes pts →
    ∃ l1 l2, pts = l1 ++ r.start :: r.stop :: l2 ∧
      r.active = activeNote notes (midpoint r.start r.stop) ∧
      r.text = (text.drop r.start).take (r.stop - r.start) := by
  intro pts
  induction pts with
  | nil => intro r hr; simp [runsFrom] at hr
  | cons p rest ih =>
    cases rest with
    | nil => intro r hr; simp [runsFrom] at hr
    | cons q rest' =>
      intro r hr
      rw [runsFrom_cons_cons] at hr
      by_cases hpart : ((text.drop p).take (q - p)).isEmpty
      · rw [if_pos hpart] at hr
        obtain ⟨l1, l2, heq, hact, htext⟩ := ih r hr
        exact ⟨p :: l1, l2, by rw [heq]; rfl, hact, htext⟩
      · rw [if_neg hpart] at hr
        rcases List.mem_cons.mp hr with rfl | hr'
        · exact ⟨[], rest', rfl, rfl, rfl⟩
        · obtain ⟨l1, l2, heq, hact, htext⟩ := ih r hr'
          exact ⟨p :: l1, l2, by rw [heq]; rfl, hact, htext⟩

/-- In a strictly sorted list, no element lies strictly between two adjacent
entries: an element below the right entry is at most the left one. -/
theorem sorted_adjacent_left {l1 l2 : List ℕ} {p q x : ℕ}
    (hs : (l1 ++ p :: q :: l2).Sorted (· < ·))
    (hx : x ∈ l1 ++ p :: q :: l2) (hxq : x < q) : x ≤ p := by
  have hs' : List.Pairwise (· < ·) (l1 ++ p :: q :: l2) := hs
  rw [List.pairwise_append] at hs'
  obtain ⟨_, hs2, hcross⟩ := hs'
  rcases List.mem_append.mp hx with hm | hm
  · exact le_of_lt (hcross x hm p (by simp))
  · rcases List.mem_cons.mp hm with rfl | hm'
    · exact le_refl x
    · rcases List.mem_cons.mp hm' with rfl | hm''
      · exact absurd hxq (lt_irrefl x)
      · exact absurd (List.rel_of_sorted_cons hs2.of_cons x hm'')
          (not_lt.mpr (le_of_lt hxq))

/-- In a strictly sorted list, an element above the left of two adjacent
entries is at least the right one. -/
theorem sorted_adjacent_right {l1 l2 : List ℕ} {p q x : ℕ}
    (hs : (l1 ++ p :: q :: l2).Sorted (· < ·))
    (hx : x ∈ l1 ++ p :: q :: l2) (hpx : p < x) : q ≤ x := by
  have hs' : List.Pairwise (· < ·) (l1 ++ p :: q :: l2) := hs
  rw [List.pairwise_append] at hs'
  obtain ⟨_, hs2, hcross⟩ := hs'
  rcases List.mem_append.mp hx with hm | hm
  · exact absurd (hcross x hm p (by simp)) (not_lt.mpr (le_of_lt hpx))
  · rcases List.mem_cons.mp hm with rfl | hm'
    · exact absurd hpx (lt_irrefl x)
    · rcases List.mem_cons.mp hm' with rfl | hm''
      · exact le_refl x
      · exact le_of_lt (List.rel_of_sorted_cons hs2.of_cons x hm'')

/-! ## Midpoint and clamping arithmetic -/

theorem midpoint_between {p q : ℕ} (h : p < q) :
    (p : ℚ) < midpoint p q ∧ midpoint p q < (q : ℚ) := by
  have hq : (p : ℚ) < (q : ℚ) := by exact_mod_cast h
  unfold midpoint
  constructor <;> linarith

theorem clampOffset_cast (v : ℤ) (L : ℕ) :
    ((clampOffset v L : ℕ) : ℚ) = max 0 (min (v : ℚ) (L : ℚ)) := by
  unfold clampOffset
  rw [show ((max 0 (min v (L : ℤ))).toNat : ℚ) =
      (((max 0 (min v (L : ℤ))).toNat : ℤ) : ℚ) by push_cast; ring]
  rw [Int.toNat_of_nonneg (le_max_left _ _)]
  push_cast
  ring

theorem clamp_le_of_raw_le {s : ℤ} {L : ℕ} {m : ℚ} (hs : (s : ℚ) ≤ m)
    (h0 : 0 ≤ m) : ((clampOffset s L : ℕ) : ℚ) ≤ m := by
  rw [clampOffset_cast]
  exact max_le h0 (le_trans (min_le_left _ _) hs)

theorem le_clamp_of_le_raw {e : ℤ} {L : ℕ} {m : ℚ} (he : m ≤ (e : ℚ))
    (hL : m ≤ (L : ℚ)) : m ≤ ((clampOffset e L : ℕ) : ℚ) := by
  rw [clampOffset_cast]
  exact le_trans (le_min he hL) (le_max_right _ _)

theorem activeNote_covers {notes : List Note} {mid : ℚ} {n : Note}
    (h : activeNote notes mid = some n) :
    n ∈ notes ∧ n.covers mid = true := by
  unfold activeNote at h
  have hc := List.find?_some h
  exact ⟨List.mem_reverse.mp (List.mem_of_find?_eq_some h), hc⟩

theorem covers_bounds {n : Note} {mid : ℚ} (h : n.covers mid = true) :
    ∃ s e, n.highlightStart = some s ∧ n.highlightEnd = some e ∧
      (s : ℚ) ≤ mid ∧ mid ≤ (e : ℚ) := by
  unfold Note.covers at h
  cases hS : n.highlightStart with
  | none => rw [hS] at h; simp at h
  | some s =>
    cases hE : n.highlightEnd with
    | none => rw [hS, hE] at h; simp at h
    | some e =>
      rw [hS, hE] at h
      simp only [Bool.and_eq_true, decide_eq_true_eq, ge_iff_le] at h
      exact ⟨s, e, rfl, rfl, h.1, h.2⟩

theorem find?_eq_head?_filter {α : Type} (p : α → Bool) (l : List α) :
    l.find? p = (l.filter p).head? := by
  induction l with
  | nil => rfl
  | cons a t ih =>
    by_cases h : p a
    · rw [List.find?_cons_of_pos _ h, List.filter_cons_of_pos h]
      rfl
    · rw [List.find?_cons_of_neg _ h, List.filter_cons_of_neg h]
      exact ih

theorem find?_reverse_eq_getLast?_filter {α : Type} (p : α → Bool)
    (l : List α) : l.reverse.find? p = (l.filter p).getLast? := by
  rw [find?_eq_head?_filter, List.filter_reverse, List.head?_reverse]

/-! ## Claims about the highlight range resolver -/

/-- C2: for every segment text and annotation list, the runs concatenated in
order reconstruct the text exactly, every character position below the text
length is covered by exactly one run, and there are at most 2N+1 runs for N
annotations. -/
theorem resolver_partition (text : List Char) (notes : List Note) :
    ((renderSegment text notes).map Run.text).flatten = text ∧
    (∀ i, i < text.length → coverCount (renderSegment text notes) i = 1) ∧
    (renderSegment text notes).length ≤ 2 * notes.length + 1 :=
  ⟨renderSegment_join text notes, renderSegment_coverCount text notes,
   renderSegment_length_le text notes⟩

/-- C2 at a concrete input: the two overlapping example annotations over an
8-character text. -/
theorem resolver_partition_witness :
    ((renderSegment exampleText [exampleNoteA, exampleNoteB]).map
      Run.text).flatten = exampleText ∧
    coverCount (renderSegment exampleText [exampleNoteA, exampleNoteB]) 4
      = 1 ∧
    (renderSegment exampleText [exampleNoteA, exampleNoteB]).length
      ≤ 2 * 2 + 1 :=
  ⟨(resolver_partition exampleText [exampleNoteA, exampleNoteB]).1,
   (resolver_partition exampleText [exampleNoteA, exampleNoteB]).2.1 4
     (by decide!),
   (resolver_partition exampleText [exampleNoteA, exampleNoteB]).2.2⟩

/-- C4: every run's winning annotation is the last annotation in the
segment's list order among those covering the run's midpoint, and on the
spec's example (annotations on 0..5 and 3..8 over an 8-character text, in
that order) the middle run from 3 to 5 is tagged with the second
annotation. -/
theorem resolver_last_writer_wins :
    (∀ (text : List Char) (notes : List Note),
      ∀ r ∈ renderSegment text notes,
      r.active =
        (notes.filter fun n =>
          n.covers (midpoint r.start r.stop)).getLast?) ∧
    renderSegment exampleText [exampleNoteA, exampleNoteB] =
      [⟨0, 3, ['a', 'b', 'c'], some exampleNoteA⟩,
       ⟨3, 5, ['d', 'e'], some exampleNoteB⟩,
       ⟨5, 8, ['f', 'g', 'h'], some exampleNoteB⟩] := by
  constructor
  · intro text notes r hr
    unfold renderSegment at hr
    by_cases hn : notes.isEmpty
    · rw [if_pos hn] at hr
      rw [List.mem_singleton.mp hr, List.isEmpty_iff.mp hn]
      rfl
    · rw [if_neg hn] at hr
      obtain ⟨l1, l2, _, hact, _⟩ := runsFrom_mem text notes _ r hr
      rw [hact]
      unfold activeNote
      exact find?_reverse_eq_getLast?_filter _ notes
  · decide!

/-- C4 at a concrete input: the middle run of the spec's example resolves to
the later-added annotation. -/
theorem resolver_last_writer_wins_witness :
    (⟨3, 5, ['d', 'e'], some exampleNoteB⟩ : Run).active =
      ([exampleNoteA, exampleNoteB].filter fun n =>
        n.covers (midpoint 3 5)).getLast? :=
  resolver_last_writer_wins.1 exampleText [exampleNoteA, exampleNoteB]
    ⟨3, 5, ['d', 'e'], some exampleNoteB⟩ (by decide!)

/-- C9: an annotation whose clamped highlightStart exceeds its clamped
highlightEnd is never the winning annotation of any run, and its presence
does not stop the resolver from producing the full partition of the text. -/
theorem malformed_note_never_wins (text : List Char) (notes : List Note)
    (n : Note) (s e : ℤ) (hs : n.highlightStart = some s)
    (he : n.highlightEnd = some e)
    (hmal : clampOffset e text.length < clampOffset s text.length) :
    (∀ r ∈ renderSegment text notes, r.active ≠ some n) ∧
    ((renderSegment text notes).map Run.text).flatten = text := by
  refine ⟨?_, renderSegment_join text notes⟩
  intro r hr ha
  unfold renderSegment at hr
  by_cases hn : notes.isEmpty
  · rw [if_pos hn] at hr
    rw [List.mem_singleton.mp hr] at ha
    cases ha
  · rw [if_neg hn] at hr
    obtain ⟨l1, l2, _, hact, _⟩ := runsFrom_mem text notes _ r hr
    rw [hact] at ha
    obtain ⟨_, hcov⟩ := activeNote_covers ha
    obtain ⟨s', e', hs', he', hsm, hme⟩ := covers_bounds hcov
    rw [hs] at hs'
    injection hs' with hseq
    rw [he] at he'
    injection he' with heeq
    subst hseq
    subst heeq
    have hse : s ≤ e := by exact_mod_cast le_trans hsm hme
    exact absurd (clampOffset_mono text.length hse) (not_le.mpr hmal)

/-- C9 at a concrete input: an inverted annotation (6 to 2) alongside a
well-formed one over the 8-character example text. -/
theorem malformed_note_never_wins_witness :
    (⟨0, 2, ['a', 'b'], some exampleNoteA⟩ : Run).active
      ≠ some malformedNote ∧
    ((renderSegment exampleText [exampleNoteA, malformedNote]).map
      Run.text).flatten = exampleText :=
  ⟨(malformed_note_never_wins exampleText [exampleNoteA, malformedNote]
      malformedNote 6 2 rfl rfl (by decide!)).1
      ⟨0, 2, ['a', 'b'], some exampleNoteA⟩ (by decide!),
   (malformed_note_never_wins exampleText [exampleNoteA, malformedNote]
      malformedNote 6 2 rfl rfl (by decide!)).2⟩

/-- C10: whenever a run is tagged with a winning annotation, that
annotation's clamped range covers the whole run: the clamped highlightStart
is at most the run's start and the clamped highlightEnd is at least the
run's stop, because clamped endpoints are boundary points of the
partition. -/
theorem winning_note_covers_run (text : List Char) (notes : List Note)
    (r : Run) (n : Note) (hr : r ∈ renderSegment text notes)
    (ha : r.active = some n) (s e : ℤ)
    (hs : n.highlightStart = some s) (he : n.highlightEnd = some e) :
    clampOffset s text.length ≤ r.start ∧
    r.stop ≤ clampOffset e text.length := by
  unfold renderSegment at hr
  by_cases hn : notes.isEmpty
  · rw [if_pos hn] at hr
    rw [List.mem_singleton.mp hr] at ha
    cases ha
  · rw [if_neg hn] at hr
    obtain ⟨l1, l2, hpts, hact, _⟩ := runsFrom_mem text notes _ r hr
    have hsorted := sortedPoints_sorted_lt text.length notes
    rw [hpts] at hsorted
    have hsorted' : List.Pairwise (· < ·) (l1 ++ r.start :: r.stop :: l2) :=
      hsorted
    rw [List.pairwise_append] at hsorted'
    have hpq : r.start < r.stop :=
      List.rel_of_sorted_cons hsorted'.2.1 r.stop (by simp)
    have hqL : r.stop ≤ text.length := by
      apply sortedPoints_le text.length notes
      rw [hpts]
      exact List.mem_append.mpr (Or.inr (by simp))
    obtain ⟨hlow, hhigh⟩ := midpoint_between hpq
    rw [hact] at ha
    obtain ⟨hmem, hcov⟩ := activeNote_covers ha
    obtain ⟨s', e', hs', he', hsm, hme⟩ := covers_bounds hcov
    rw [hs] at hs'
    injection hs' with hseq
    rw [he] at he'
    injection he' with heeq
    subst hseq
    subst heeq
    have h0m : (0 : ℚ) ≤ midpoint r.start r.stop :=
      le_trans (Nat.cast_nonneg r.start) (le_of_lt hlow)
    have hcs : ((clampOffset s text.length : ℕ) : ℚ) ≤
        midpoint r.start r.stop := clamp_le_of_raw_le hsm h0m
    have hcsq : clampOffset s text.length < r.stop := by
      exact_mod_cast lt_of_le_of_lt hcs hhigh
    have hcs_mem : clampOffset s text.length ∈
        l1 ++ r.start :: r.stop :: l2 := by
      rw [← hpts]
      apply mem_sortedPoints.mpr
      unfold allPoints
      exact List.mem_cons_of_mem _ (List.mem_cons_of_mem _
        (clamp_start_mem_notePoints text.length notes n hmem s hs))
    have h1 : clampOffset s text.length ≤ r.start :=
      sorted_adjacent_left hsorted hcs_mem hcsq
    have hmL : midpoint r.start r.stop ≤ (text.length : ℚ) :=
      le_trans (le_of_lt hhigh) (by exact_mod_cast hqL)
    have hce : midpoint r.start r.stop ≤
        ((clampOffset e text.length : ℕ) : ℚ) := le_clamp_of_le_raw hme hmL
    have hpce : r.start < clampOffset e text.length := by
      exact_mod_cast lt_of_lt_of_le hlow hce
    have hce_mem : clampOffset e text.length ∈
        l1 ++ r.start :: r.stop :: l2 := by
      rw [← hpts]
      apply mem_sortedPoints.mpr
      unfold allPoints
      exact List.mem_cons_of_mem _ (List.mem_cons_of_mem _
        (clamp_end_mem_notePoints text.length notes n hmem e he))
    have h2 : r.stop ≤ clampOffset e text.length :=
      sorted_adjacent_right hsorted hce_mem hpce
    exact ⟨h1, h2⟩

/-- C10 at a concrete input: the middle run of the spec's example is wholly
covered by the clamped range of its winning annotation. -/
theorem winning_note_covers_run_witness :
    clampOffset 3 exampleText.length ≤ 3 ∧
    5 ≤ clampOffset 8 exampleText.length :=
  winning_note_covers_run exampleText [exampleNoteA, exampleNoteB]
    ⟨3, 5, ['d', 'e'], some exampleNoteB⟩ exampleNoteB (by decide!) rfl
    3 8 rfl rfl

end CommClimb
